import Mathlib

/-!
Verification model of the stochastic L-system engine (`src/lsystem.py`) and of
the textual grammar format reader (`src/lparser.py`) of the L-System-Py
repository.

Conventions of the embedding:
* Python numeric weights are modelled as exact rationals `ℚ`.  All rational
  operations of the model are written with kernel-computable primitives
  (`mkRat`, `Rat.divInt`, the decidable order on `ℚ`) so that every model
  function evaluates by `decide`/`rfl`; bridge lemmas relate them to the
  ordinary field operations of `ℚ`.
* A raised Python exception is modelled as `none` / an aborted computation.
* `random.choice` and `random.random()` are modelled by an explicit oracle:
  a stream of index draws and a stream of uniform draws, consumed at an
  advancing counter, one draw per call, mirroring the single shared RNG.
* The dynamically `exec`-created `GenAlphabet` enum class of the reader is
  modelled by the list of declared letter names itself (lookup = membership),
  with the module-level stub (single member `A`) as the fallback when no
  alphabet has been declared yet.
-/

namespace LSys

/-- The default `epsilon` of `near_equals` in lsystem.py (`1e-6`), exactly. -/
def eps : ℚ := mkRat 1 1000000

/-- Kernel-computable addition on `ℚ` (same value as `a + b`). -/
def qadd (a b : ℚ) : ℚ := mkRat (a.num * b.den + b.num * a.den) (a.den * b.den)

/-- Kernel-computable subtraction on `ℚ` (same value as `a - b`). -/
def qsub (a b : ℚ) : ℚ := mkRat (a.num * b.den - b.num * a.den) (a.den * b.den)

/-- Kernel-computable division on `ℚ` (same value as `a / b`, with `x / 0 = 0`). -/
def qdiv (a b : ℚ) : ℚ := Rat.divInt (a.num * b.den) (a.den * b.num)

/-- Kernel-computable absolute value on `ℚ` (same value as `|a|`). -/
def qabs (a : ℚ) : ℚ := mkRat a.num.natAbs a.den

/-- Model of `near_equals(a, b)` from lsystem.py: `abs(a - b) < epsilon`. -/
def near_equals (a b : ℚ) : Bool := decide (qabs (qsub a b) < eps)

/-- A token of an axiom, generation or replacement: an alphabet symbol (an
`AlphabetEnum` member, identified by its name) or a literal string.  Python
compares them with `==`; a literal never equals a symbol. -/
inductive Token where
  | sym (name : String)
  | lit (text : String)
deriving DecidableEq, Repr

/-- Model of `WeightedReplacement` of lsystem.py: a token list plus a numeric weight. -/
structure WeightedReplacement where
  replacement : List Token
  weight : ℚ
deriving DecidableEq, Repr

/-- A replacement candidate as stored in `Rule.replacements`.  The engine is
duck-typed: a candidate is either a plain token list or a `WeightedReplacement`
object (the grammar reader can accumulate both under one pattern).  Iterating
either (`new_data.extend(...)`) yields its token list. -/
inductive Cand where
  | plain (tokens : List Token)
  | weighted (wr : WeightedReplacement)
deriving DecidableEq, Repr

/-- The tokens obtained by iterating a candidate (`WeightedReplacement.__iter__`
iterates its `replacement` list). -/
def Cand.tokens : Cand → List Token
  | .plain ts => ts
  | .weighted wr => wr.replacement

/-- The three rule classes of lsystem.py: `Rule` (uniform random choice among
candidates), `LeafRule` (always its own pattern), and `WeightedRule`
(post-`__init__` state: sorted, normalized weighted candidates). -/
inductive Rule where
  | plain (pattern : String) (replacements : List Cand)
  | leaf (pattern : String)
  | weighted (pattern : String) (replacements : List WeightedReplacement)
deriving DecidableEq, Repr

/-- The `pattern` attribute shared by all three rule classes. -/
def Rule.pattern : Rule → String
  | .plain p _ => p
  | .leaf p => p
  | .weighted p _ => p

/-- The comparison realised by `sorted(replacements, key=lambda x: x.weight,
reverse=True)`: `a` may stay before `b` iff `b.weight ≤ a.weight`. -/
def wdesc (a b : WeightedReplacement) : Prop := b.weight ≤ a.weight

instance : DecidableRel wdesc := fun a b => inferInstanceAs (Decidable (b.weight ≤ a.weight))

instance : IsTotal WeightedReplacement wdesc := ⟨fun a b => le_total b.weight a.weight⟩

instance : IsTrans WeightedReplacement wdesc := ⟨fun _ _ _ h1 h2 => le_trans h2 h1⟩

/-- Python's `sorted(..., key=lambda x: x.weight, reverse=True)`: the unique
stable descending-by-weight sort, realised by insertion sort. -/
def sortByWeightDesc (reps : List WeightedReplacement) : List WeightedReplacement :=
  List.insertionSort wdesc reps

/-- The running total `total += replacement.weight` of `WeightedRule.__init__`
and `normalize_weights`. -/
def weightTotal (reps : List WeightedReplacement) : ℚ :=
  reps.foldl (fun t r => qadd t r.weight) 0

/-- Model of `WeightedRule.normalize_weights`: divide every weight by the total. -/
def normalize_weights (reps : List WeightedReplacement) : List WeightedReplacement :=
  let total := weightTotal reps
  reps.map (fun r => { r with weight := qdiv r.weight total })

/-- Model of `WeightedRule.__init__` acting on the candidate list: sort stably by
descending weight, then renormalize unless the total is already within `1e-6`
of 1.  `none` models the `ZeroDivisionError` Python raises in
`normalize_weights` when the total is 0. -/
def WeightedRule.init (reps : List WeightedReplacement) : Option (List WeightedReplacement) :=
  let sorted := sortByWeightDesc reps
  if near_equals (weightTotal sorted) 1 then some sorted
  else if weightTotal sorted = 0 then none
  else some (normalize_weights sorted)

/-- The random source: `choices k` resolves the `k`-th draw when it is a
`random.choice` (used modulo the list length), `uniforms k` resolves it when it
is a `random.random()` call.  The counter advances by one per draw, mirroring
the single shared RNG. -/
structure Oracle where
  choices : Nat → Nat
  uniforms : Nat → ℚ

/-- The loop of `WeightedRule.random_weighted_choice`: subtract each weight in
stored order from the drawn value, returning the first candidate at which the
remainder is ≤ 0; `none` when the list is exhausted without crossing zero. -/
def rwcLoop : ℚ → List WeightedReplacement → Option (List Token)
  | _, [] => none
  | chance, r :: rs =>
    let c := qsub chance r.weight
    if c ≤ 0 then some r.replacement else rwcLoop c rs

/-- Model of `WeightedRule.random_weighted_choice` given the uniform draw `u`: the loop
result, falling back to the last candidate (`self.replacements[-1]`).  `none`
models the `IndexError` on an empty candidate list. -/
def random_weighted_choice (reps : List WeightedReplacement) (u : ℚ) : Option (List Token) :=
  match rwcLoop u reps with
  | some ts => some ts
  | none => (reps.getLast?).map (fun r => r.replacement)

/-- Model of `get_replacement` of the three rule classes, consuming at most one random
draw at counter `k`.  `none` models a raised exception. -/
def Rule.get_replacement (r : Rule) (k : Nat) (o : Oracle) : Option (List Token) × Nat :=
  match r with
  | .leaf p => (some [Token.sym p], k)
  | .plain p reps =>
    match reps with
    | [] => (some [Token.sym p], k)
    | _ :: _ => (some ((reps.getD (o.choices k % reps.length) (Cand.plain [])).tokens), k + 1)
  | .weighted _ reps => (random_weighted_choice reps (o.uniforms k), k + 1)

/-- One iteration of the inner loop of `LSystem.expand` for token `t`: the
first rule in list order whose pattern equals the token supplies the
replacement; an unmatched token passes through unchanged, with a diagnostic
recorded iff `warn` is set.  Result: replacement tokens (or `none` on
exception), next draw counter, diagnostics emitted. -/
def stepToken (rules : List Rule) (warn : Bool) (t : Token) (k : Nat) (o : Oracle) :
    Option (List Token) × Nat × List Token :=
  match rules.find? (fun r => t == Token.sym r.pattern) with
  | some r =>
    let p := r.get_replacement k o
    (p.1, p.2, [])
  | none => (some [t], k, if warn then [t] else [])

/-- One derivation step of `LSystem.expand`: build the candidate next
generation token by token, threading the draw counter and collecting
diagnostics.  `none` models an exception escaping the generator. -/
def derivStepAux (rules : List Rule) (warn : Bool) (o : Oracle) :
    List Token → Nat → Option (List Token × Nat × List Token)
  | [], k => some ([], k, [])
  | t :: ts, k =>
    match stepToken rules warn t k o with
    | (none, _, _) => none
    | (some rep, k', ws) =>
      match derivStepAux rules warn o ts k' with
      | none => none
      | some (rest, k2, ws2) => some (rep ++ rest, k2, ws ++ ws2)

/-- The tokens-and-counter view of one derivation step. -/
def stepT (rules : List Rule) (warn : Bool) (o : Oracle) (data : List Token) (k : Nat) :
    Option (List Token × Nat) :=
  (derivStepAux rules warn o data k).map (fun x => (x.1, x.2.1))

/-- The generator `LSystem.expand` run to completion: the list of yielded
generations.  Per step: build the candidate next generation; if it equals the
current one token-by-token, stop without yielding it, otherwise yield it and
continue.  `none` = fuel exhausted (no fixpoint reached within `fuel` steps) or
exception. -/
def expandAux (rules : List Rule) (warn : Bool) (o : Oracle) :
    Nat → List Token → Nat → Option (List (List Token))
  | 0, _, _ => none
  | fuel + 1, data, k =>
    match stepT rules warn o data k with
    | none => none
    | some (nd, k') =>
      if nd = data then some []
      else
        match expandAux rules warn o fuel nd k' with
        | none => none
        | some ys => some (nd :: ys)

/-- Model of `LSystem`: the axiom's pattern, the rule list, and the `warn` flag. -/
structure LSystem where
  axiomPattern : List Token
  rules : List Rule
  warn : Bool
deriving DecidableEq, Repr

/-- Model of `LSystem.expand` from generation 0 = the axiom, with draw counter 0. -/
def LSystem.expand (sys : LSystem) (o : Oracle) (fuel : Nat) : Option (List (List Token)) :=
  expandAux sys.rules sys.warn o fuel sys.axiomPattern 0

/-- Model of `''.join` applied to one element: a Literal is a `str` and is taken
verbatim; a Symbol is an enum member, on which `str.join` raises TypeError
(`none`) — `realize` performs no `str(...)` conversion. -/
def strOfToken : Token → Option String
  | .lit s => some s
  | .sym _ => none

/-- Model of `''.join(result)` over a token list: the concatenation when every token is
a Literal, `none` (TypeError) as soon as a Symbol occurs. -/
def joinTokens : List Token → Option String
  | [] => some ""
  | t :: ts =>
    match strOfToken t, joinTokens ts with
    | some s, some r => some (s ++ r)
    | _, _ => none

/-- Model of `LSystem.realize`: drain `expand()`, keeping the last yielded generation
(`result` stays `None` if nothing is yielded), then `''.join` it.  `none`
models the TypeError on `join(None)` as well as the TypeError on a Symbol. -/
def LSystem.realize (sys : LSystem) (o : Oracle) (fuel : Nat) : Option String :=
  match sys.expand o fuel with
  | none => none
  | some ys =>
    match ys.getLast? with
    | none => none
    | some g => joinTokens g

/-- Modelled from the spec: the canonical short text form of a token — a
Symbol renders as its text value, a Literal verbatim.  This is the rendering
`realize()` is specified to apply; the code's `realize` lacks it. -/
def strOfTokenSpec : Token → String
  | .sym n => n
  | .lit s => s

/-- Modelled from the spec: joining a generation with every Symbol rendered
via its canonical short text form and every Literal verbatim. -/
def joinTokensSpec (ts : List Token) : String :=
  String.join (ts.map strOfTokenSpec)

/-! ### The textual grammar format reader, `src/lparser.py`

The buffered character stream `BufFile` (read / peek / unget) is modelled by a
plain `List Char`: `get` takes the head, `unget` conses the character back.
Python's `f.get()` returns `''` at end of input, modelled as `Option Char`.
The consume loops of lparser.py spin forever when they hit end of input before
their terminator (`''` never matches); such runs, like every raised exception,
are modelled as `none` (no result is ever produced). -/

/-- Model of `LParser._consume_to_line_end`: read up to the next newline, which is
pushed back. -/
def consume_to_line_end : List Char → Option (List Char × List Char)
  | [] => none
  | c :: cs =>
    if c = '\n' then some ([], c :: cs)
    else (consume_to_line_end cs).map (fun p => (c :: p.1, p.2))

/-- Model of `LParser._consume_until`: read until a character of `stop`, which is
pushed back; newlines are dropped from the collected text. -/
def consume_until (stop : List Char) : List Char → Option (List Char × List Char)
  | [] => none
  | c :: cs =>
    if c ∈ stop then some ([], c :: cs)
    else (consume_until stop cs).map (fun p => ((if c = '\n' then p.1 else c :: p.1), p.2))

/-- The `literal_terminal` regex `[\w_|:\n]` of lparser.py, on one character. -/
def literal_terminal (c : Char) : Bool :=
  c.isAlphanum || c = '_' || c = '|' || c = ':' || c = '\n'

/-- Model of `LParser._consume_until_r` with the `literal_terminal` regex: read (and
here: discard-collect) until a word character, `|`, `:` or newline, which is
pushed back; newlines are dropped from the collected text. -/
def consume_until_r : List Char → Option (List Char × List Char)
  | [] => none
  | c :: cs =>
    if literal_terminal c then some ([], c :: cs)
    else (consume_until_r cs).map (fun p => ((if c = '\n' then p.1 else c :: p.1), p.2))

/-- Trailing-whitespace trim (`\s*?` before a comma of the `comma_sep` split). -/
def dropTrailingWs (l : List Char) : List Char :=
  (l.reverse.dropWhile Char.isWhitespace).reverse

/-- Helper of `splitCommaTrim`: the current piece has already had its leading
whitespace removed when it follows a comma. -/
def splitCommaTrimAux : List Char → List (List Char) → List String
  | p, [] => [String.mk p]
  | p, q :: qs => String.mk (dropTrailingWs p) :: splitCommaTrimAux (q.dropWhile Char.isWhitespace) qs

/-- Model of `re.split(r'\s*?,\s*', s)`: split on commas, removing the whitespace
adjacent to each comma (whitespace at the ends of `s` is kept). -/
def splitCommaTrim (l : List Char) : List String :=
  match l.splitOn ',' with
  | [] => []
  | p :: ps => splitCommaTrimAux p ps

/-- Both-ends whitespace trim, Python's `str.strip()`. -/
def trimBoth (l : List Char) : List Char :=
  dropTrailingWs (l.dropWhile Char.isWhitespace)

/-- Model of `LParser.consume_alphabet`: read up to `#`, `$`, `@` or `~` and split on
commas.  The `exec`-created `GenAlphabet` class is modelled by the returned
letter list itself. -/
def consume_alphabet (l : List Char) : Option (List String × List Char) :=
  (consume_until ['#', '$', '@', '~'] l).map (fun p => (splitCommaTrim p.1, p.2))

/-- Model of `LParser.consume_axiom`: read up to the closing `@` (which is then
discarded) and split on commas. -/
def consume_axiom_decl (l : List Char) : Option (List String × List Char) :=
  match consume_until ['@'] l with
  | none => none
  | some (cs, rest) =>
    match rest with
    | [] => none
    | _ :: rest' => some (splitCommaTrim cs, rest')

/-- Model of `GenAlphabet[name]`: membership lookup in the most recently declared
alphabet, falling back to the module-level stub class (single member `A`) when
none has been declared.  `none` models the KeyError. -/
def genAlphabetLookup (letters : Option (List String)) (name : String) : Option String :=
  if name ∈ letters.getD ["A"] then some name else none

/-- Model of `LParser.consume_pattern`: read up to `=` (pushed back), strip, and
validate against the alphabet when one is already known; `none` models the
`ValueError` for an unknown pattern. -/
def consume_pattern (letters : Option (List String)) (l : List Char) : Option (String × List Char) :=
  match consume_until ['='] l with
  | none => none
  | some (cs, rest) =>
    let p := String.mk (trimBoth cs)
    match letters with
    | some ls => if p ∈ ls then some (p, rest) else none
    | none => some (p, rest)

/-- Model of `LParser.consume_letter`: read a symbol name up to space, newline, `:` or
`|` (pushed back) and resolve it via `GenAlphabet[...]`. -/
def consume_letter (letters : Option (List String)) (l : List Char) : Option (Token × List Char) :=
  match consume_until [' ', '\n', ':', '|'] l with
  | none => none
  | some (cs, rest) =>
    match genAlphabetLookup letters (String.mk cs) with
    | none => none
    | some n => some (Token.sym n, rest)

/-- Model of `LParser.consume_literal`: read up to the closing quote, then discard the
quote and any further noise up to the next `literal_terminal` character. -/
def consume_literal (l : List Char) : Option (String × List Char) :=
  match consume_until ['"'] l with
  | none => none
  | some (cs, rest) =>
    match consume_until_r rest with
    | none => none
    | some (_, rest2) => some (String.mk cs, rest2)

/-- The character-collecting loop of `LParser.consume_weight`: digits and dots
are collected; the first other character (or end of input) is consumed, not
pushed back. -/
def consume_weight_digits : List Char → List Char × Option Char × List Char
  | [] => ([], none, [])
  | c :: cs =>
    if c.isDigit || c = '.' then
      let p := consume_weight_digits cs
      (c :: p.1, p.2.1, p.2.2)
    else ([], some c, cs)

/-- Digit run to a natural number. -/
def natOfDigits (cs : List Char) : Nat :=
  cs.foldl (fun a c => a * 10 + (c.toNat - 48)) 0

/-- A natural number as a rational, kernel-computably. -/
def natToRat (n : Nat) : ℚ := mkRat (Int.ofNat n) 1

/-- Model of `int(w)` / `float(w)` on the collected digits-and-dots string: an integer
when there is no dot, a decimal with one dot; `none` models the ValueError on
an empty string, a lone dot being fine is excluded (`float(".")` raises), and
two or more dots. -/
def parseWeightStr (cs : List Char) : Option ℚ :=
  match cs.splitOn '.' with
  | [ds] => if ds.isEmpty then none else some (natToRat (natOfDigits ds))
  | [ip, fp] =>
    if ip.isEmpty && fp.isEmpty then none
    else some (qadd (natToRat (natOfDigits ip)) (qdiv (natToRat (natOfDigits fp)) (natToRat (10 ^ fp.length))))
  | _ => none

/-- Model of `LParser.consume_weight`: collect the digit run, parse it, and also return
the (consumed) character that terminated it. -/
def consume_weight (l : List Char) : Option (Option Char × ℚ × List Char) :=
  let p := consume_weight_digits l
  (parseWeightStr p.1).map (fun q => (p.2.1, q, p.2.2))

/-- Model of `LParser.consume_replacement_case`: one dispatch step of a case — a quoted
literal, a bare symbol name, or any other single character; returns the
character read (`none` at end of input) for the caller's terminator test. -/
def consume_replacement_case (letters : Option (List String)) (parts : List Token)
    (l : List Char) : Option (Option Char × List Token × List Char) :=
  match l with
  | [] => some (none, parts, [])
  | c :: cs =>
    if c = '"' then
      (consume_literal cs).map (fun p => (some c, parts ++ [Token.lit p.1], p.2))
    else if c.isAlphanum || c = '_' then
      (consume_letter letters (c :: cs)).map (fun p => (some c, parts ++ [p.1], p.2))
    else some (some c, parts, cs)

/-- The terminator test `c == '|' or c == '~' or c == ':' or c == ''` of the
inner case loop. -/
def isCaseTerm : Option Char → Bool
  | none => true
  | some c => c = '|' || c = '~' || c = ':'

/-- The inner `while True` loop of the `=` branch: consume dispatch steps
until a terminator. -/
def caseLoop (letters : Option (List String)) :
    Nat → List Token → List Char → Option (Option Char × List Token × List Char)
  | 0, _, _ => none
  | fuel + 1, parts, l =>
    match consume_replacement_case letters parts l with
    | none => none
    | some (c, parts', rest) =>
      if isCaseTerm c then some (c, parts', rest)
      else caseLoop letters fuel parts' rest

/-- Model of `BufFile.discard_if`. -/
def discard_if (c : Char) : List Char → List Char
  | [] => []
  | x :: xs => if x = c then xs else x :: xs

/-- Model of `replacements[pattern].append(v)` on the insertion-ordered
`defaultdict(list)`. -/
def mapAppend (m : List (String × List Cand)) (k : String) (v : Cand) :
    List (String × List Cand) :=
  match m with
  | [] => [(k, [v])]
  | (k', vs) :: rest => if k' = k then (k', vs ++ [v]) :: rest else (k', vs) :: mapAppend rest k v

/-- The outer `while True` loop of the `=` branch: one iteration per case.  A
case ending in `:` parses a weight (whose terminating character is consumed),
appends a `WeightedReplacement`, then discards up to the next `|`/`~` and an
optional `|`; any other case appends a plain candidate.  The block ends when
the governing character is `~` or end of input. -/
def blockLoop (letters : Option (List String)) (pat : String) :
    Nat → List (String × List Cand) → List Char → Option (List (String × List Cand) × List Char)
  | 0, _, _ => none
  | fuel + 1, repls, l =>
    match caseLoop letters (l.length + 1) [] l with
    | none => none
    | some (c, parts, rest) =>
      if c = some ':' then
        match consume_weight rest with
        | none => none
        | some (c2, w, rest2) =>
          let repls' := mapAppend repls pat (Cand.weighted ⟨parts, w⟩)
          match consume_until ['|', '~'] rest2 with
          | none => none
          | some (_, rest3) =>
            let rest4 := discard_if '|' rest3
            if c2 = some '~' ∨ c2 = none then some (repls', rest4)
            else blockLoop letters pat fuel repls' rest4
      else
        let repls' := mapAppend repls pat (Cand.plain parts)
        if c = some '~' ∨ c = none then some (repls', rest)
        else blockLoop letters pat fuel repls' rest

/-- The state threaded by `LParser.parse`'s main loop: the declared alphabet,
the axiom, the most recent pattern header, and the accumulated candidates per
pattern. -/
structure ParseState where
  letters : Option (List String)
  axiomSyms : Option (List String)
  pattern : Option String
  replacements : List (String × List Cand)
deriving DecidableEq, Repr

/-- The initial parse state. -/
def initState : ParseState := ⟨none, none, none, []⟩

/-- The main `while True` dispatch loop of `LParser.parse`: `#` comment, `%`
alphabet, `@` axiom, `$` pattern header, `=` replacement block; anything else
is skipped.  `none` on the `=` branch with no preceding pattern header models
the UnboundLocalError. -/
def parseLoop : Nat → ParseState → List Char → Option ParseState
  | 0, _, _ => none
  | fuel + 1, st, l =>
    match l with
    | [] => some st
    | c :: cs =>
      if c = '#' then
        match consume_to_line_end cs with
        | none => none
        | some (_, rest) => parseLoop fuel st rest
      else if c = '\n' then parseLoop fuel st cs
      else if c = '%' then
        match consume_alphabet cs with
        | none => none
        | some (ls, rest) => parseLoop fuel { st with letters := some ls } rest
      else if c = '@' then
        match consume_axiom_decl cs with
        | none => none
        | some (ax, rest) => parseLoop fuel { st with axiomSyms := some ax } rest
      else if c = '$' then
        match consume_pattern st.letters cs with
        | none => none
        | some (p, rest) => parseLoop fuel { st with pattern := some p } rest
      else if c = '=' then
        match st.pattern with
        | none => none
        | some pat =>
          match blockLoop st.letters pat (cs.length + 1) st.replacements cs with
          | none => none
          | some (repls, rest) => parseLoop fuel { st with replacements := repls } rest
      else parseLoop fuel st cs

/-- Effectful map over a list in the `Option` monad, written out so that it
kernel-reduces. -/
def mapOpt (f : α → Option β) : List α → Option (List β)
  | [] => some []
  | a :: as =>
    match f a with
    | none => none
    | some b => (mapOpt f as).map (fun bs => b :: bs)

/-- All-`WeightedReplacement` view of a candidate list: the `sorted(...)` call
inside `WeightedRule.__init__` accesses `.weight` of every candidate, so a
plain candidate in the list raises AttributeError (`none`). -/
def candsToWeighted : List Cand → Option (List WeightedReplacement)
  | [] => some []
  | Cand.weighted wr :: rest => (candsToWeighted rest).map (fun ws => wr :: ws)
  | Cand.plain _ :: _ => none

/-- The per-pattern branch of `LParser.transform_parse_result`: resolve the
pattern, then build a `WeightedRule` when the first accumulated candidate is a
`WeightedReplacement` and a plain `Rule` otherwise. -/
def mkRuleFor (letters : List String) (p : String) (cands : List Cand) : Option Rule :=
  match genAlphabetLookup (some letters) p with
  | none => none
  | some p' =>
    match cands with
    | [] => none
    | c0 :: _ =>
      match c0 with
      | Cand.weighted _ =>
        match candsToWeighted cands with
        | none => none
        | some ws =>
          match WeightedRule.init ws with
          | none => none
          | some ws' => some (Rule.weighted p' ws')
      | Cand.plain _ => some (Rule.plain p' cands)

/-- Model of `LParser.transform_parse_result`: resolve the axiom's symbol names and
build one rule per accumulated pattern. -/
def transform_parse_result (axs : List String) (letters : List String)
    (repls : List (String × List Cand)) : Option (List Token × List Rule) :=
  match mapOpt (fun i => (genAlphabetLookup (some letters) i).map Token.sym) axs with
  | none => none
  | some axToks =>
    match mapOpt (fun pr => mkRuleFor letters pr.1 pr.2) repls with
    | none => none
    | some rules => some (axToks, rules)

/-- Model of `LParser.parse` on the file's contents: run the dispatch loop, require an
alphabet and an axiom (hard errors otherwise), then build the result
`(GenAlphabet, LSystem(Axiom(axiom), rules, warn=False))`.  Any `none` models
an aborted parse: no partial grammar is ever returned. -/
def parse (src : String) : Option (List String × LSystem) :=
  match parseLoop (src.toList.length + 1) initState src.toList with
  | none => none
  | some st =>
    match st.letters with
    | none => none
    | some letters =>
      match st.axiomSyms with
      | none => none
      | some axs =>
        match transform_parse_result axs letters st.replacements with
        | none => none
        | some p => some (letters, ⟨p.1, p.2, false⟩)

/-- Whether a rule object is a `WeightedRule`. -/
def Rule.isWeighted : Rule → Bool
  | .weighted _ _ => true
  | _ => false

/-! ### Concrete instances used by the claims -/

/-- A concrete random oracle (all draws 0). -/
def o0 : Oracle := ⟨fun _ => 0, fun _ => 0⟩

/-- Model of `LSystem(Axiom([A]), [Rule(A, [[B]])], warn=False)`: its expansion reaches
the fixpoint `[B]`, a generation consisting of one Symbol. -/
def sys4 : LSystem := ⟨[Token.sym "A"], [Rule.plain "A" [Cand.plain [Token.sym "B"]]], false⟩

/-- Model of `LSystem(Axiom([A]), [], warn=False)`: the axiom is already a fixpoint. -/
def sys9 : LSystem := ⟨[Token.sym "A"], [], false⟩

/-- A two-candidate weighted list with weights `[1/2, 1/2]` (summing to 1). -/
def c2reps : List WeightedReplacement :=
  [⟨[Token.sym "A"], mkRat 1 2⟩, ⟨[Token.sym "B"], mkRat 1 2⟩]

/-- A single-candidate weighted list with weight 2 (not summing to 1), on
which a large draw exhausts the subtraction loop. -/
def c2repsB : List WeightedReplacement := [⟨[Token.sym "A"], 2⟩]

/-- The `[2, 1, 1]` integer-weight candidate list of the weight-normalization
property (weights in source order 2, 1, 1). -/
def ex211 : List WeightedReplacement :=
  [⟨[Token.sym "A"], 2⟩, ⟨[Token.sym "B"], 1⟩, ⟨[Token.sym "C"], 1⟩]

/-- The candidate list `WeightedRule.__init__` produces from `ex211`:
stably sorted descending, weights normalized to `[1/2, 1/4, 1/4]`. -/
def ex211out : List WeightedReplacement :=
  [⟨[Token.sym "A"], mkRat 1 2⟩, ⟨[Token.sym "B"], mkRat 1 4⟩, ⟨[Token.sym "C"], mkRat 1 4⟩]

/-- The parser round-trip source of the spec (§8):
`%A,B` / `@A@` / `$A=` / `"x"B|B:1~` / `$B=` / `"y"~`. -/
def c5src : String := "%A,B\n@A@\n$A=\n\"x\"B|B:1~\n$B=\n\"y\"~"

/-- What parsing `c5src` actually produces: a single plain `Rule` for pattern
`A` holding the plain candidate `["x", B]` and the `WeightedReplacement`
`([B], 1)`; no rule at all for pattern `B` (the post-weight discard consumed
the `$B=` block). -/
def c5actual : LSystem :=
  ⟨[Token.sym "A"],
   [Rule.plain "A" [Cand.plain [Token.lit "x", Token.sym "B"],
                    Cand.weighted ⟨[Token.sym "B"], 1⟩]],
   false⟩

/-- A grammar source whose pattern `A` accumulates a `WeightedReplacement`
first and a plain candidate second: `%A,B,C` / `@A@` / `$A=B:1|C~`. -/
def c6src : String := "%A,B,C\n@A@\n$A=B:1|C~"

/-- The state the dispatch loop reaches on `c6src`. -/
def c6state : ParseState :=
  ⟨some ["A", "B", "C"], some ["A"], some "A",
   [("A", [Cand.weighted ⟨[Token.sym "B"], 1⟩, Cand.plain []])]⟩

/-- A source whose pattern header names `C`, outside the declared alphabet
`{A,B}`. -/
def c7badPatternSrc : String := "%A,B\n$C=\n\"x\"~"

/-- The state the dispatch loop reaches on `"%A$A=~"` (alphabet declared,
no axiom). -/
def c7state : ParseState := ⟨some ["A"], none, some "A", [("A", [Cand.plain []])]⟩

/-- A rule whose pattern (`A`) does not match the probed token. -/
def c10pre : List Rule := [Rule.plain "A" [Cand.plain [Token.lit "a"]]]

/-- The first rule for pattern `B` in list order. -/
def c10r : Rule := Rule.plain "B" [Cand.plain [Token.lit "b1"]]

/-- A later rule with the same pattern `B`, which must never be consulted. -/
def c10post : List Rule := [Rule.plain "B" [Cand.plain [Token.lit "b2"]]]

/-! ### Bridge lemmas: the kernel-computable rational operations agree with
the field operations of `ℚ`. -/

theorem qadd_eq (a b : ℚ) : qadd a b = a + b := by
  have ha : (a.den : ℚ) ≠ 0 := Nat.cast_ne_zero.mpr a.den_nz
  have hb : (b.den : ℚ) ≠ 0 := Nat.cast_ne_zero.mpr b.den_nz
  rw [qadd, Rat.mkRat_eq_div]
  push_cast
  conv_rhs => rw [← Rat.num_div_den a, ← Rat.num_div_den b]
  field_simp

theorem qsub_eq (a b : ℚ) : qsub a b = a - b := by
  have ha : (a.den : ℚ) ≠ 0 := Nat.cast_ne_zero.mpr a.den_nz
  have hb : (b.den : ℚ) ≠ 0 := Nat.cast_ne_zero.mpr b.den_nz
  rw [qsub, Rat.mkRat_eq_div]
  push_cast
  conv_rhs => rw [← Rat.num_div_den a, ← Rat.num_div_den b]
  field_simp
  ring

theorem qdiv_eq (a b : ℚ) : qdiv a b = a / b := by
  have ha : (a.den : ℚ) ≠ 0 := Nat.cast_ne_zero.mpr a.den_nz
  have hb : (b.den : ℚ) ≠ 0 := Nat.cast_ne_zero.mpr b.den_nz
  rcases eq_or_ne b 0 with rb | rb
  · subst rb; simp [qdiv]
  · have hbn : (b.num : ℚ) ≠ 0 := by
      simpa using Rat.num_ne_zero.mpr rb
    rw [qdiv, Rat.divInt_eq_div]
    push_cast
    conv_rhs => rw [← Rat.num_div_den a, ← Rat.num_div_den b]
    field_simp

theorem qabs_eq (a : ℚ) : qabs a = |a| := by
  rw [qabs, Rat.abs_def, Rat.mkRat_eq_divInt]

theorem near_equals_iff (a b : ℚ) : near_equals a b = true ↔ |a - b| < eps := by
  rw [near_equals, qabs_eq, qsub_eq, decide_eq_true_iff]

theorem eps_pos : 0 < eps := by
  rw [eps, Rat.mkRat_eq_div]
  norm_num

/-! ### Helper lemmas -/

theorem weightTotal_aux (reps : List WeightedReplacement) :
    ∀ a : ℚ, reps.foldl (fun t r => qadd t r.weight) a = a + (reps.map (fun r => r.weight)).sum := by
  induction reps with
  | nil => intro a; simp
  | cons r rs ih =>
    intro a
    rw [List.foldl_cons, ih, qadd_eq, List.map_cons, List.sum_cons]
    ring

theorem weightTotal_eq_sum (reps : List WeightedReplacement) :
    weightTotal reps = (reps.map (fun r => r.weight)).sum := by
  rw [weightTotal, weightTotal_aux]
  ring

theorem list_sum_div (l : List ℚ) (t : ℚ) : (l.map (fun x => x / t)).sum = l.sum / t := by
  induction l with
  | nil => simp
  | cons x xs ih => simp [ih, add_div]

/-- If the subtraction loop of `random_weighted_choice` exhausts a non-empty
candidate list, the drawn value exceeded the sum of the weights. -/
theorem rwcLoop_none_lt (reps : List WeightedReplacement) :
    ∀ c : ℚ, reps ≠ [] → rwcLoop c reps = none →
      (reps.map (fun r => r.weight)).sum < c := by
  induction reps with
  | nil => intro c h; exact absurd rfl h
  | cons r rs ih =>
    intro c _ hnone
    rw [rwcLoop] at hnone
    by_cases hle : qsub c r.weight ≤ 0
    · simp [hle] at hnone
    · simp only [hle, if_false] at hnone
      rw [qsub_eq] at hle
      push_neg at hle
      rcases List.eq_nil_or_concat rs with hrs | _
      · subst hrs
        simp only [List.map_cons, List.map_nil, List.sum_cons, List.sum_nil, add_zero]
        linarith
      · have hrs : rs ≠ [] := by
          rintro rfl
          simp_all
        have := ih (qsub c r.weight) hrs hnone
        rw [qsub_eq] at this
        simp only [List.map_cons, List.sum_cons]
        linarith

/-! ### The claims -/

/-- C2: for a `WeightedRule` whose stored weights sum to 1 and a uniform draw
`u ∈ [0,1)`, `random_weighted_choice` returns exactly the subtraction-loop
result — the replacement of the first candidate, in stored
(descending-weight) order, at which the running remainder is ≤ 0 — and the
exhausted-list fallback branch is never taken; and when the loop does exhaust
a non-empty list, the fallback returns the last (smallest-weight) candidate's
replacement. -/
theorem c2_weighted_choice :
    (∀ (reps : List WeightedReplacement) (u : ℚ),
        (reps.map (fun r => r.weight)).sum = 1 → 0 ≤ u → u < 1 →
        ∃ ts, rwcLoop u reps = some ts ∧ random_weighted_choice reps u = some ts) ∧
    (∀ (reps : List WeightedReplacement) (u : ℚ) (h : reps ≠ []),
        rwcLoop u reps = none →
        random_weighted_choice reps u = some ((reps.getLast h).replacement)) := by
  constructor
  · intro reps u hsum hu0 hu1
    cases hE : rwcLoop u reps with
    | some ts => exact ⟨ts, rfl, by rw [random_weighted_choice, hE]⟩
    | none =>
      exfalso
      rcases eq_or_ne reps [] with rfl | hne
      · simp at hsum
      · have := rwcLoop_none_lt reps u hne hE
        rw [hsum] at this
        linarith
  · intro reps u h hE
    rw [random_weighted_choice, hE, List.getLast?_eq_getLast reps h]
    rfl

/-- Witness for C2 at concrete inputs: weights `[1/2, 1/2]` with draw `1/4`
(loop returns, no fallback), and weight `[2]` with draw `5` (loop exhausts,
fallback returns the last candidate). -/
theorem c2_witness :
    (∃ ts, rwcLoop (mkRat 1 4) c2reps = some ts ∧
        random_weighted_choice c2reps (mkRat 1 4) = some ts) ∧
    random_weighted_choice c2repsB 5 =
      some ((c2repsB.getLast (by decide)).replacement) := by
  constructor
  · refine c2_weighted_choice.1 c2reps (mkRat 1 4) ?_ (by decide) (by decide)
    show mkRat 1 2 + (mkRat 1 2 + 0) = 1
    rw [Rat.mkRat_eq_div]
    norm_num
  · exact c2_weighted_choice.2 c2repsB 5 (by decide) (by decide)

/-- C3: a successful `WeightedRule.__init__` on non-negative weights leaves
the candidate list sorted in descending order of weight, with the weights
summing to 1 within tolerance `1e-6`, and with the same candidates (a
permutation of the input replacements); and on the integer weights `[2,1,1]`
it produces exactly the weights `[1/2, 1/4, 1/4]` in stable order. -/
theorem c3_normalization :
    (∀ reps out : List WeightedReplacement,
        (∀ r ∈ reps, 0 ≤ r.weight) → WeightedRule.init reps = some out →
        List.Sorted wdesc out ∧
        |(out.map (fun r => r.weight)).sum - 1| < eps ∧
        (out.map (fun r => r.replacement)).Perm (reps.map (fun r => r.replacement))) ∧
    WeightedRule.init ex211 = some ex211out := by
  constructor
  · intro reps out hnn hinit
    simp only [WeightedRule.init] at hinit
    have hsort : List.Sorted wdesc (sortByWeightDesc reps) :=
      List.sorted_insertionSort wdesc reps
    have hperm : (sortByWeightDesc reps).Perm reps := List.perm_insertionSort wdesc reps
    have hpermrep : ((sortByWeightDesc reps).map (fun r => r.replacement)).Perm
        (reps.map (fun r => r.replacement)) := hperm.map _
    split at hinit
    · obtain rfl : sortByWeightDesc reps = out := by injection hinit
      refine ⟨hsort, ?_, hpermrep⟩
      rw [← weightTotal_eq_sum]
      exact (near_equals_iff _ _).1 (by assumption)
    · split at hinit
      · exact absurd hinit (by simp)
      · obtain rfl : normalize_weights (sortByWeightDesc reps) = out := by injection hinit
        have h0 : ¬ weightTotal (sortByWeightDesc reps) = 0 := by assumption
        have htpos : 0 < weightTotal (sortByWeightDesc reps) := by
          have hnn' : ∀ x ∈ (sortByWeightDesc reps).map (fun r => r.weight), 0 ≤ x := by
            intro x hx
            obtain ⟨r, hr, rfl⟩ := List.mem_map.1 hx
            exact hnn r (hperm.mem_iff.1 hr)
          rcases (List.sum_nonneg hnn').lt_or_eq with hlt | heq
          · rw [weightTotal_eq_sum]; exact hlt
          · exact absurd (by rw [weightTotal_eq_sum, ← heq]) h0
        refine ⟨?_, ?_, ?_⟩
        · rw [normalize_weights]
          exact List.Pairwise.map _
            (fun a b hab => by
              show qdiv b.weight _ ≤ qdiv a.weight _
              rw [qdiv_eq, qdiv_eq]
              exact (div_le_div_iff_of_pos_right htpos).mpr hab) hsort
        · have hm : ((normalize_weights (sortByWeightDesc reps)).map (fun r => r.weight)).sum
              = ((sortByWeightDesc reps).map (fun r => r.weight)).sum
                / weightTotal (sortByWeightDesc reps) := by
            rw [normalize_weights, List.map_map, ← list_sum_div, List.map_map]
            have hfe : ((fun r : WeightedReplacement => r.weight) ∘
                  fun r : WeightedReplacement =>
                    WeightedReplacement.mk r.replacement
                      (qdiv r.weight (weightTotal (sortByWeightDesc reps))))
                = ((fun x => x / weightTotal (sortByWeightDesc reps)) ∘
                  fun r : WeightedReplacement => r.weight) := by
              funext r
              show qdiv r.weight _ = _
              rw [qdiv_eq]
              rfl
            rw [hfe]
          rw [hm, ← weightTotal_eq_sum, div_self h0]
          simpa using eps_pos
        · rw [normalize_weights, List.map_map]
          exact hpermrep
  · decide

/-- Witness for C3: the general statement applied to the concrete `[2,1,1]`
instance, whose output `ex211out` carries the weights `[1/2, 1/4, 1/4]` with
the two equal-weight candidates kept in their original (stable) order. -/
theorem c3_witness :
    List.Sorted wdesc ex211out ∧
    |(ex211out.map (fun r => r.weight)).sum - 1| < eps ∧
    (ex211out.map (fun r => r.replacement)).Perm (ex211.map (fun r => r.replacement)) :=
  c3_normalization.1 ex211 ex211out (by decide) c3_normalization.2

/-- A derivation step from a fixpoint state terminates the generator at once,
yielding nothing further. -/
theorem expandAux_of_fix (rules : List Rule) (warn : Bool) (o : Oracle)
    (data : List Token) (k k' fuel : Nat)
    (h : stepT rules warn o data k = some (data, k')) :
    expandAux rules warn o (fuel + 1) data k = some [] := by
  simp [expandAux, h]

/-- C1 (amended): per step the candidate next generation is compared
token-by-token with the current one — equal means the generator stops without
yielding it, and from a yielded generation `G` with `step(G) = G` the run
terminates with `G` as its last yielded value.  (When the very first
generation is already a fixpoint nothing is yielded at all; see the
counterexample.) -/
theorem c1_fixpoint_stop :
    (∀ (rules : List Rule) (warn : Bool) (o : Oracle) (data : List Token) (k k' fuel : Nat),
        stepT rules warn o data k = some (data, k') →
        expandAux rules warn o (fuel + 1) data k = some []) ∧
    (∀ (rules : List Rule) (warn : Bool) (o : Oracle) (data nd : List Token) (k k' k2 fuel : Nat),
        stepT rules warn o data k = some (nd, k') → nd ≠ data →
        stepT rules warn o nd k' = some (nd, k2) →
        expandAux rules warn o (fuel + 2) data k = some [nd]) := by
  constructor
  · exact fun rules warn o data k k' fuel h => expandAux_of_fix rules warn o data k k' fuel h
  · intro rules warn o data nd k k' k2 fuel h1 hne h2
    simp [expandAux, h1, hne, h2]

/-- Witness for C1 (amended), at concrete systems: a fixpoint state stops the
generator with no yield, and a one-step-from-fixpoint start terminates with
the fixpoint as the last (and only) yielded generation. -/
theorem c1_witness :
    expandAux [] false o0 1 [Token.sym "A"] 0 = some [] ∧
    expandAux sys4.rules false o0 5 [Token.sym "A"] 0 = some [[Token.sym "B"]] :=
  ⟨c1_fixpoint_stop.1 [] false o0 [Token.sym "A"] 0 0 0 (by decide),
   c1_fixpoint_stop.2 sys4.rules false o0 [Token.sym "A"] [Token.sym "B"] 0 1 1 3
     (by decide) (by decide) (by decide)⟩

/-- C1 counterexample: with no rules the generation `[A]` is a fixpoint of one
derivation step, and `expand()` started there terminates yielding nothing at
all — so there is no last yielded value equal to `[A]` (for any fuel). -/
theorem c1_counterexample :
    stepT [] false o0 [Token.sym "A"] 0 = some ([Token.sym "A"], 0) ∧
    ∀ fuel, ¬ ∃ ys, expandAux [] false o0 fuel [Token.sym "A"] 0 = some ys ∧
      ys.getLast? = some [Token.sym "A"] := by
  refine ⟨by decide, ?_⟩
  rintro fuel ⟨ys, hy, hl⟩
  match fuel with
  | 0 => simp [expandAux] at hy
  | fuel + 1 =>
    rw [expandAux_of_fix [] false o0 [Token.sym "A"] 0 0 fuel (by decide)] at hy
    obtain rfl : ([] : List (List Token)) = ys := by injection hy
    exact absurd hl (by decide)

/-- C9: when one derivation step leaves the axiom unchanged, `expand()` yields
no generations at all, and `realize()` does not return the axiom's text — it
fails (`''.join(None)` raises TypeError), modelled as `none`. -/
theorem c9_axiom_fixpoint (sys : LSystem) (o : Oracle) (k' fuel : Nat)
    (h : stepT sys.rules sys.warn o sys.axiomPattern 0 = some (sys.axiomPattern, k')) :
    sys.expand o (fuel + 1) = some [] ∧ sys.realize o (fuel + 1) = none := by
  have he : sys.expand o (fuel + 1) = some [] :=
    expandAux_of_fix sys.rules sys.warn o sys.axiomPattern 0 k' fuel h
  refine ⟨he, ?_⟩
  rw [LSystem.realize, he]
  rfl

/-- Witness for C9: the system with axiom `[A]` and no rules. -/
theorem c9_witness : sys9.expand o0 5 = some [] ∧ sys9.realize o0 5 = none :=
  c9_axiom_fixpoint sys9 o0 0 4 (by decide)

/-- The replacement tokens and the draw counter produced by `stepToken` do not
depend on the `warn` flag (only the diagnostics component does). -/
theorem stepToken_warn (rules : List Rule) (t : Token) (k : Nat) (o : Oracle) :
    (stepToken rules true t k o).1 = (stepToken rules false t k o).1 ∧
    (stepToken rules true t k o).2.1 = (stepToken rules false t k o).2.1 := by
  rw [stepToken, stepToken]
  cases rules.find? (fun r => t == Token.sym r.pattern) <;> exact ⟨rfl, rfl⟩

/-- The tokens-and-counter outcome of one whole derivation step does not
depend on the `warn` flag. -/
theorem derivStepAux_warn (rules : List Rule) (o : Oracle) :
    ∀ (data : List Token) (k : Nat),
      (derivStepAux rules true o data k).map (fun x => (x.1, x.2.1)) =
      (derivStepAux rules false o data k).map (fun x => (x.1, x.2.1)) := by
  intro data
  induction data with
  | nil => intro k; rfl
  | cons t ts ih =>
    intro k
    obtain ⟨h1, h2⟩ := stepToken_warn rules t k o
    rw [derivStepAux, derivStepAux]
    rcases hT : stepToken rules true t k o with ⟨oT, kT, wT⟩
    rcases hF : stepToken rules false t k o with ⟨oF, kF, wF⟩
    rw [hT, hF] at h1 h2
    dsimp only at h1 h2
    subst h1
    subst h2
    cases oT with
    | none => rfl
    | some rep =>
      dsimp only
      have hrec := ih kT
      cases hA : derivStepAux rules true o ts kT with
      | none =>
        cases hB : derivStepAux rules false o ts kT with
        | none => rfl
        | some v => rw [hA, hB] at hrec; simp at hrec
      | some u =>
        cases hB : derivStepAux rules false o ts kT with
        | none => rw [hA, hB] at hrec; simp at hrec
        | some v =>
          rw [hA, hB] at hrec
          rw [Option.map_some', Option.map_some', Option.some_inj, Prod.mk.injEq] at hrec
          simp [hrec.1, hrec.2]

/-- C8: a token for which no rule's pattern matches passes through one
derivation step unchanged, with no exception, at an unchanged draw counter;
the unmatched-symbol diagnostic is recorded exactly when the `warn` flag is
set; and the diagnostic never changes the resulting generation (the
tokens-and-counter outcome of a derivation step is the same under
`warn=true` and `warn=false`). -/
theorem c8_terminal_fallback :
    (∀ (rules : List Rule) (warn : Bool) (t : Token) (k : Nat) (o : Oracle),
        (∀ r ∈ rules, Token.sym r.pattern ≠ t) →
        stepToken rules warn t k o = (some [t], k, if warn then [t] else [])) ∧
    (∀ (rules : List Rule) (o : Oracle) (data : List Token) (k : Nat),
        stepT rules true o data k = stepT rules false o data k) := by
  constructor
  · intro rules warn t k o hno
    have hf : rules.find? (fun r => t == Token.sym r.pattern) = none :=
      List.find?_eq_none.2 (fun r hr => by
        simp only [beq_iff_eq]
        exact fun h => hno r hr h.symm)
    rw [stepToken, hf]
  · intro rules o data k
    rw [stepT, stepT, derivStepAux_warn]

/-- Witness for C8: the unmatched token `A` under an empty rule list, with the
diagnostic under `warn=true` and without it under `warn=false`. -/
theorem c8_witness :
    stepToken [] true (Token.sym "A") 0 o0 = (some [Token.sym "A"], 0, [Token.sym "A"]) ∧
    stepT [] true o0 [Token.sym "A"] 0 = stepT [] false o0 [Token.sym "A"] 0 := by
  constructor
  · have h := c8_terminal_fallback.1 [] true (Token.sym "A") 0 o0 (by simp)
    simpa using h
  · exact c8_terminal_fallback.2 [] o0 [Token.sym "A"] 0

/-- C10: when several rules share a pattern, a matching token is rewritten by
the first rule in list order whose pattern equals it; the rules after it are
never consulted (the outcome does not mention `post` at all). -/
theorem c10_first_rule_wins :
    ∀ (pre : List Rule) (r : Rule) (post : List Rule) (warn : Bool) (t : Token)
      (k : Nat) (o : Oracle),
      (∀ r' ∈ pre, Token.sym r'.pattern ≠ t) → Token.sym r.pattern = t →
      stepToken (pre ++ r :: post) warn t k o =
        ((r.get_replacement k o).1, (r.get_replacement k o).2, []) := by
  intro pre r post warn t k o hpre hr
  have hfpre : pre.find? (fun x => t == Token.sym x.pattern) = none :=
    List.find?_eq_none.2 (fun x hx => by
      simp only [beq_iff_eq]
      exact fun h => hpre x hx h.symm)
  have hfind : (pre ++ r :: post).find? (fun x => t == Token.sym x.pattern) = some r := by
    rw [List.find?_append, hfpre, Option.none_or]
    exact List.find?_cons_of_pos _ (by simp [← hr])
  rw [stepToken, hfind]

/-- Witness for C10: token `B` against `[rule for A, first rule for B, second
rule for B]` is rewritten by the first `B` rule. -/
theorem c10_witness :
    stepToken (c10pre ++ c10r :: c10post) false (Token.sym "B") 0 o0 =
      ((c10r.get_replacement 0 o0).1, (c10r.get_replacement 0 o0).2, []) :=
  c10_first_rule_wins c10pre c10r c10post false (Token.sym "B") 0 o0 (by decide) (by decide)

/-- C4 (code-bug evidence): `sys4`'s expansion reaches the fixpoint `[B]`, a
generation holding the Symbol `B`; `realize()` on it fails (TypeError from
`''.join` on a non-str enum member, modelled as `none`) instead of returning
the spec-described rendering, which is `"B"`. -/
theorem c4_realize_bug :
    sys4.expand o0 6 = some [[Token.sym "B"]] ∧
    sys4.realize o0 6 = none ∧
    joinTokensSpec [Token.sym "B"] = "B" :=
  ⟨by decide, by decide, rfl⟩

/-- C5 counterexample: parsing the six-line round-trip source yields exactly
one rule, for pattern `A`, and it is a plain `Rule`, not a `WeightedRule` —
in particular pattern `B` receives no rule at all, refuting the claimed
parse result. -/
theorem c5_counterexample :
    parse c5src = some (["A", "B"], c5actual) ∧
    c5actual.rules.map Rule.pattern = ["A"] ∧
    c5actual.rules.map Rule.isWeighted = [false] :=
  ⟨by decide, by decide, by decide⟩

/-- C5 (amended): parsing the six-line source yields alphabet `{A,B}`, axiom
`[A]`, and a single plain `Rule` for pattern `A` whose candidates are the
plain `["x", B]` and the `WeightedReplacement ([B], 1)`; pattern `B` gets no
rule, because `consume_weight` consumes the `~` terminating `B:1` and the
subsequent discard-to-`|`/`~` then swallows the whole `$B=` line up to the
final `~`. -/
theorem c5_parse_result :
    parse c5src = some (["A", "B"], c5actual) ∧
    parseLoop (c5src.toList.length + 1) initState c5src.toList =
      some ⟨some ["A", "B"], some ["A"], some "A",
            [("A", [Cand.plain [Token.lit "x", Token.sym "B"],
                    Cand.weighted ⟨[Token.sym "B"], 1⟩])]⟩ :=
  ⟨by decide, by decide⟩

/-- Any candidate list containing a plain (non-`WeightedReplacement`)
candidate cannot be viewed as all-weighted: `WeightedRule.__init__`'s sort
would raise AttributeError on it. -/
theorem candsToWeighted_none_of_plain :
    ∀ (cs : List Cand) (ts : List Token), Cand.plain ts ∈ cs → candsToWeighted cs = none := by
  intro cs
  induction cs with
  | nil => intro ts h; exact absurd h (List.not_mem_nil _)
  | cons c rest ih =>
    intro ts h
    cases c with
    | plain ts' => rfl
    | weighted wr =>
      rcases List.mem_cons.1 h with hc | hmem
      · exact absurd hc (by simp)
      · rw [candsToWeighted, ih ts hmem]
        rfl

/-- C6 (amended): at finalization a pattern whose first accumulated candidate
is plain becomes a plain `Rule` regardless of the shapes of the later
candidates; a pattern whose first candidate is a `WeightedReplacement` is
handed to `WeightedRule`, which succeeds (producing a `WeightedRule`) when
all the candidates are weighted, but aborts the parse (AttributeError,
`none`) as soon as any later candidate is plain. -/
theorem c6_first_candidate_branch :
    (∀ (letters : List String) (p : String) (ts : List Token) (cs : List Cand),
        p ∈ letters →
        mkRuleFor letters p (Cand.plain ts :: cs) = some (Rule.plain p (Cand.plain ts :: cs))) ∧
    (∀ (letters : List String) (p : String) (w : WeightedReplacement) (cs : List Cand)
        (ts : List Token), p ∈ letters → Cand.plain ts ∈ cs →
        mkRuleFor letters p (Cand.weighted w :: cs) = none) ∧
    (∀ (letters : List String) (p : String) (w : WeightedReplacement) (cs : List Cand)
        (ws out : List WeightedReplacement), p ∈ letters →
        candsToWeighted cs = some ws → WeightedRule.init (w :: ws) = some out →
        mkRuleFor letters p (Cand.weighted w :: cs) = some (Rule.weighted p out)) := by
  have hlook : ∀ (letters : List String) (p : String), p ∈ letters →
      genAlphabetLookup (some letters) p = some p := by
    intro letters p hp
    rw [genAlphabetLookup, if_pos]
    simpa using hp
  refine ⟨?_, ?_, ?_⟩
  · intro letters p ts cs hp
    rw [mkRuleFor, hlook letters p hp]
  · intro letters p w cs ts hp hmem
    rw [mkRuleFor, hlook letters p hp]
    dsimp only
    rw [candsToWeighted, candsToWeighted_none_of_plain cs ts hmem]
    rfl
  · intro letters p w cs ws out hp hws hinit
    rw [mkRuleFor, hlook letters p hp]
    dsimp only
    rw [candsToWeighted, hws]
    dsimp only [Option.map_some']
    rw [hinit]

/-- Witness for C6 (amended): plain-first with a weighted second candidate
gives a plain `Rule`; weighted-first with a plain second candidate aborts;
all-weighted gives a `WeightedRule`. -/
theorem c6_witness :
    mkRuleFor ["A", "B"] "A"
        [Cand.plain [Token.lit "x"], Cand.weighted ⟨[Token.sym "B"], 1⟩] =
      some (Rule.plain "A" [Cand.plain [Token.lit "x"], Cand.weighted ⟨[Token.sym "B"], 1⟩]) ∧
    mkRuleFor ["A", "B"] "A"
        [Cand.weighted ⟨[Token.sym "B"], 1⟩, Cand.plain [Token.lit "x"]] = none ∧
    mkRuleFor ["A"] "A" [Cand.weighted ⟨[Token.sym "A"], 1⟩] =
      some (Rule.weighted "A" [⟨[Token.sym "A"], 1⟩]) :=
  ⟨c6_first_candidate_branch.1 ["A", "B"] "A" [Token.lit "x"]
      [Cand.weighted ⟨[Token.sym "B"], 1⟩] (by decide),
   c6_first_candidate_branch.2.1 ["A", "B"] "A" ⟨[Token.sym "B"], 1⟩
      [Cand.plain [Token.lit "x"]] [Token.lit "x"] (by decide) (by decide),
   c6_first_candidate_branch.2.2 ["A"] "A" ⟨[Token.sym "A"], 1⟩ [] []
      [⟨[Token.sym "A"], 1⟩] (by decide) (by decide) (by decide)⟩

/-- C6 counterexample: on the source `%A,B,C` / `@A@` / `$A=B:1|C~` the
dispatch loop accumulates, for pattern `A`, a `WeightedReplacement` first and
a plain candidate second — yet `parse` returns no grammar at all (the
`WeightedRule` construction aborts), refuting "becomes a WeightedRule ...
regardless of the shapes of the later candidates". -/
theorem c6_counterexample :
    parseLoop (c6src.toList.length + 1) initState c6src.toList = some c6state ∧
    c6state.replacements =
      [("A", [Cand.weighted ⟨[Token.sym "B"], 1⟩, Cand.plain []])] ∧
    parse c6src = none :=
  ⟨by decide, by decide, by decide⟩

/-- C7: `parse` yields no grammar when the scan finishes without an alphabet
declaration, when it finishes without an axiom declaration, and when a
pattern header names a symbol outside the declared alphabet; in every case
the whole parse aborts with no partial result. -/
theorem c7_parse_errors :
    (∀ (src : String) (st : ParseState),
        parseLoop (src.toList.length + 1) initState src.toList = some st →
        st.letters = none → parse src = none) ∧
    (∀ (src : String) (st : ParseState) (ls : List String),
        parseLoop (src.toList.length + 1) initState src.toList = some st →
        st.letters = some ls → st.axiomSyms = none → parse src = none) ∧
    parse c7badPatternSrc = none := by
  refine ⟨?_, ?_, by decide⟩
  · intro src st h1 h2
    rw [parse, h1]
    dsimp only
    rw [h2]
  · intro src st ls h1 h2 h3
    rw [parse, h1]
    dsimp only
    rw [h2]
    dsimp only
    rw [h3]

/-- Witness for C7: the empty source (no alphabet) and the source `%A$A=~`
(alphabet but no axiom) both abort with no grammar. -/
theorem c7_witness : parse "" = none ∧ parse "%A$A=~" = none :=
  ⟨c7_parse_errors.1 "" initState (by decide) rfl,
   c7_parse_errors.2.1 "%A$A=~" c7state ["A"] (by decide) rfl rfl⟩

end LSys
